import Mathlib

/-!
Shallow embedding of the projection engine of `fontseca/http_result_object`
(src/main.go): field-name resolution (`sanitizeFields`), chunk planning
(`computeDelta` and the slicing loop of `With`), per-chunk extraction
(`doTransform`) and the public operation `With` on `Result[T]`.

The Go code is generic in the element type `T` and inspects it by reflection;
here the reflective view of `T` is an explicit `GoType` argument, and record
values are `GoValue` terms carrying their own shape. Machine integers
(`Page`, `RPP` : int64) are only copied, never computed with, so they are
modelled as `Int`; slice lengths are `Nat`.
-/

set_option maxHeartbeats 1000000

/-- Runtime kind of a record value, mirroring `reflect.Kind` restricted to the
three cases the engine distinguishes: struct, map, anything else. -/
inductive Kind where
  | struct
  | map
  | other
deriving DecidableEq, Repr

/-- One declared field of a fixed-schema (struct) record type: the Go
identifier (`reflect.StructField.Name`, PascalCase) and the value of its
`json` struct tag (`record.Tag.Get("json")`). -/
structure StructField where
  name : String
  tag : String
deriving DecidableEq, Repr

/-- The static element type `T` of a payload, as reflection sees it. -/
inductive GoType where
  | structT (fields : List StructField)
  | mapT
  | otherT
deriving DecidableEq, Repr

/-- A record value. `structV` lists the struct fields as
(Go field name, value); `mapV` lists the map entries as (key, value), keys
being distinct in a Go map; `otherV` stands for a value of any other kind
(pointer, slice, ...). `α` is the type of the carried payload values. -/
inductive GoValue (α : Type) where
  | structV (fields : List (String × α))
  | mapV (entries : List (String × α))
  | otherV
deriving DecidableEq, Repr

variable {α : Type} {β : Type} {γ : Type}

/-- `reflect.TypeOf(v).Kind()` for a record value. -/
def kindOfValue : GoValue α → Kind
  | GoValue.structV _ => Kind.struct
  | GoValue.mapV _ => Kind.map
  | GoValue.otherV => Kind.other

/-- `Result[T]` from src/main.go: `Page`, `RPP` (int64) and `Payload []T`. -/
structure Result (α : Type) where
  Page : Int
  RPP : Int
  Payload : List α
deriving DecidableEq, Repr

/-- `sanitizedField` from src/main.go: the pair of the snake_case (json tag)
name, accessor `snake()`, and the PascalCase (Go field) name, accessor
`pascal()`. -/
structure sanitizedField where
  snake : String
  pascal : String
deriving DecidableEq, Repr

/-- `contains` from src/main.go: whether some element of `haystack` has the
given string as its snake name. -/
def contains (haystack : List sanitizedField) (needle : String) : Bool :=
  haystack.any (fun s => needle == s.snake)

/-- The cutset `"\n\a\b\f\r\t\v "` that `sanitizeFields` trims from raw
field names: newline, bell, backspace, form feed, carriage return, tab,
vertical tab and space. -/
def fieldCutset : List Char := ['\n', '\x07', '\x08', '\x0c', '\r', '\t', '\x0b', ' ']

/-- `strings.Trim`: remove all leading and all trailing characters belonging
to the cutset. -/
def trimChars (cutset : List Char) (s : String) : String :=
  String.mk (((s.toList.dropWhile (fun c => c ∈ cutset)).reverse.dropWhile
    (fun c => c ∈ cutset)).reverse)

/-- The external alias of a struct field:
`strings.Trim(strings.Split(tag, ",")[0], " ")`, i.e. the part of the json
tag before the first comma with surrounding spaces removed. -/
def tagExternal (tag : String) : String :=
  trimChars [' '] (String.mk (tag.toList.takeWhile (fun c => c ≠ ',')))

/-- Body of the inner declared-field loop of the struct case of
`sanitizeFields` (src/main.go lines 84-93): check one declared field against
the normalized requested name `f`. -/
def structInnerStep (f : String) (acc2 : List sanitizedField)
    (record : StructField) : List sanitizedField :=
  let sanitized : sanitizedField := ⟨tagExternal record.tag, record.name⟩
  if sanitized.snake = f ∧ contains acc2 sanitized.snake = false
  then acc2 ++ [sanitized] else acc2

/-- Body of the struct-case outer loop of `sanitizeFields` (src/main.go lines
79-94): process one raw requested name against the declared fields `tf`. -/
def structFieldStep (tf : List StructField) (acc : List sanitizedField)
    (field : String) : List sanitizedField :=
  let f := trimChars fieldCutset field
  if f = "" then acc
  else tf.foldl (structInnerStep f) acc

/-- Body of the map-case loop of `sanitizeFields` (src/main.go lines 96-103):
process one raw key. Only the snake component is set; the pascal component
keeps its zero value `""`. -/
def mapKeyStep (acc : List sanitizedField) (key : String) : List sanitizedField :=
  let k := trimChars fieldCutset key
  if k ≠ "" ∧ contains acc k = false then acc ++ [⟨k, ""⟩] else acc

/-- `sanitizeFields` from src/main.go. The Go function is generic in `T` and
reflects on it; the reflective view of `T` is the `GoType` argument. -/
def sanitizeFields (T : GoType) (fields : List String) : List sanitizedField :=
  match T with
  | GoType.structT tf => fields.foldl (structFieldStep tf) []
  | GoType.mapT => fields.foldl mapKeyStep []
  | GoType.otherT => []

/-- `computeDelta` from src/main.go. The float64 comparisons against 1,
`math.Pow(10,2)`, `math.Pow(10,3)` and `math.Pow(10,4)` are exact on every
representable slice length, so they are modelled on `Nat`. -/
def computeDelta (payloadSize : Nat) : Nat :=
  if payloadSize ≤ 1 ∨ payloadSize ≤ 100 then 1
  else if payloadSize ≤ 1000 then 2
  else if payloadSize ≤ 10000 then 3
  else 4

/-- `reflect.Value.FieldByName` on a struct value: the value of the field
with the given Go name; `IsValid()` corresponds to `some`. -/
def fieldByName (fvs : List (String × α)) (name : String) : Option α :=
  match fvs with
  | [] => none
  | kv :: rest => if kv.fst = name then some kv.snd else fieldByName rest name

/-- A projected record: the `map[string]any` built for one entry, as an
association list in insertion order. -/
abbrev Projected (α : Type) := List (String × α)

/-- Go map assignment `entryFields[k] = v` on the association-list model:
overwrite the entry for `k` when present, otherwise append. -/
def mapAssign (m : Projected α) (k : String) (v : α) : Projected α :=
  if m.any (fun p => p.fst = k) then m.map (fun p => if p.fst = k then (k, v) else p)
  else m ++ [(k, v)]

/-- Body of the per-field loop of `doTransform` (src/main.go lines 127-141)
for one entry. -/
def applyField (kind : Kind) (entry : GoValue α) (entryFields : Projected α)
    (field : sanitizedField) : Projected α :=
  if Kind.struct = kind then
    match entry with
    | GoValue.structV fvs =>
      match fieldByName fvs field.pascal with
      | some v => mapAssign entryFields field.snake v
      | none => entryFields
    | _ => entryFields
  else if Kind.map = kind then
    match entry with
    | GoValue.mapV entries =>
      entries.foldl (fun acc kv =>
        if field.snake = kv.fst then mapAssign acc field.snake kv.snd else acc) entryFields
    | _ => entryFields
  else entryFields

/-- The per-entry work of `doTransform`: build the projected record of one
payload entry. -/
def transformEntry (kind : Kind) (fields : List sanitizedField)
    (entry : GoValue α) : Projected α :=
  fields.foldl (applyField kind entry) []

/-- `doTransform` from src/main.go: transform one chunk. The `WaitGroup` and
the `out` pointer are concurrency plumbing; each call processes its chunk's
records in order and appends to the chunk's own buffer, which this map
renders. -/
def doTransform (kind : Kind) (chunk : List (GoValue α))
    (fields : List sanitizedField) : List (Projected α) :=
  chunk.map (transformEntry kind fields)

/-- `With` from src/main.go. Goroutine `i` fills `chunks[i]` from the
disjoint slice `payload[i*chunkSize:end]`; after `wg.Wait()` the chunks are
concatenated in index order, so the aggregate is deterministic and is
rendered here sequentially. -/
def With (T : GoType) (r : Result (GoValue α)) (fields : List String) :
    Result (Projected α) :=
  if fields.length = 0 ∨ r.Payload.length = 0 then
    { Page := r.Page, RPP := r.RPP, Payload := [] }
  else
    match r.Payload with
    | [] => { Page := r.Page, RPP := r.RPP, Payload := [] }
    | v0 :: _ =>
      let kind := kindOfValue v0
      if kind ≠ Kind.struct ∧ kind ≠ Kind.map then
        { Page := r.Page, RPP := r.RPP, Payload := [] }
      else
        let payloadSize := r.Payload.length
        let delta := computeDelta payloadSize
        let chunkSize := payloadSize / delta
        let sanitizedFields := sanitizeFields T fields
        let chunks := (List.range delta).map (fun i =>
          let e := if 1 + i = delta then payloadSize else (1 + i) * chunkSize
          doTransform kind ((r.Payload.drop (i * chunkSize)).take (e - i * chunkSize))
            sanitizedFields)
        { Page := r.Page, RPP := r.RPP, Payload := chunks.flatten }

/-- The index ranges `[i*chunkSize, end)` into which `With` slices the
payload (src/main.go lines 157-173), one per goroutine. -/
def chunkRanges (n : Nat) : List (Nat × Nat) :=
  let delta := computeDelta n
  let chunkSize := n / delta
  (List.range delta).map (fun i =>
    (i * chunkSize, if 1 + i = delta then n else (1 + i) * chunkSize))

/-- Spec-side restatement of one step of fixed-schema resolution (spec 4.1):
normalize the raw name, discard it when empty or already resolved, otherwise
scan the declared fields in declaration order and let the first field whose
external alias equals the name yield the descriptor. Written from the spec's
words, to be compared with `structFieldStep`. -/
def specStep (tf : List StructField) (acc : List sanitizedField)
    (raw : String) : List sanitizedField :=
  let f := trimChars fieldCutset raw
  if f = "" then acc
  else if contains acc f = true then acc
  else
    match tf.find? (fun record => tagExternal record.tag == f) with
    | some record => acc ++ [⟨tagExternal record.tag, record.name⟩]
    | none => acc

/-- Spec-side fixed-schema resolution over a whole request (spec 4.1),
folding `specStep` in first-seen order. -/
def resolveStructSpec (tf : List StructField) (fields : List String) :
    List sanitizedField :=
  fields.foldl (specStep tf) []

/-- The two-field demonstration schema of the spec's concrete scenario:
external aliases `id` and `first_name`. -/
def demoSchema : List StructField :=
  [⟨"Id", "id"⟩, ⟨"FirstName", "first_name"⟩]

/-- A record of the demonstration schema with the given `id` and
`first_name` values. -/
def demoRecord (i v : α) : GoValue α :=
  GoValue.structV [("Id", i), ("FirstName", v)]

/-! ## Basic helpers -/

theorem computeDelta_pos (n : Nat) : 0 < computeDelta n := by
  unfold computeDelta
  split_ifs <;> omega

theorem computeDelta_le (n : Nat) (hn : 1 ≤ n) : computeDelta n ≤ n := by
  unfold computeDelta
  split_ifs <;> omega

theorem contains_eq_true_iff (h : List sanitizedField) (k : String) :
    contains h k = true ↔ k ∈ h.map sanitizedField.snake := by
  simp only [contains, List.any_eq_true, beq_iff_eq, List.mem_map]
  constructor
  · rintro ⟨s, hs, h1⟩
    exact ⟨s, hs, h1.symm⟩
  · rintro ⟨s, hs, h1⟩
    exact ⟨s, hs, h1.symm⟩

theorem contains_eq_false_iff (h : List sanitizedField) (k : String) :
    contains h k = false ↔ k ∉ h.map sanitizedField.snake := by
  rw [← contains_eq_true_iff]
  cases contains h k <;> simp

/-! ## Chunk slicing covers the payload -/

theorem take_chunks_flatten (c : Nat) :
    ∀ (k : Nat) (l : List β),
      ((List.range k).map (fun i => (l.drop (i * c)).take c)).flatten = l.take (k * c) := by
  intro k
  induction k with
  | zero => intro l; simp
  | succ k ih =>
    intro l
    rw [List.range_succ, List.map_append, List.flatten_append, ih l]
    simp only [List.map_cons, List.map_nil, List.flatten_cons, List.flatten_nil,
      List.append_nil]
    rw [Nat.succ_mul, List.take_add]

theorem with_slices_flatten (l : List β) (d c : Nat) (hd : 0 < d) :
    ((List.range d).map (fun i =>
      (l.drop (i * c)).take
        ((if 1 + i = d then l.length else (1 + i) * c) - i * c))).flatten = l := by
  obtain ⟨e, rfl⟩ : ∃ e, d = e + 1 := ⟨d - 1, by omega⟩
  rw [List.range_succ, List.map_append, List.flatten_append]
  have hcongr : (List.range e).map (fun i =>
      (l.drop (i * c)).take
        ((if 1 + i = e + 1 then l.length else (1 + i) * c) - i * c)) =
      (List.range e).map (fun i => (l.drop (i * c)).take c) := by
    apply List.map_congr_left
    intro i hi
    have hie : i < e := List.mem_range.mp hi
    rw [if_neg (by omega)]
    have hmul : (1 + i) * c = c + i * c := by ring
    rw [hmul, Nat.add_sub_cancel]
  rw [hcongr, take_chunks_flatten]
  have hlast : (if 1 + e = e + 1 then l.length else (1 + e) * c) = l.length :=
    if_pos (by omega)
  simp only [List.map_cons, List.map_nil, List.flatten_cons, List.flatten_nil,
    List.append_nil, hlast]
  have h1 : (l.drop (e * c)).take (l.length - e * c) = l.drop (e * c) := by
    have hlen : (l.drop (e * c)).length = l.length - e * c := List.length_drop _ _
    rw [← hlen, List.take_length]
  rw [h1, List.take_append_drop]

theorem doTransform_chunks_flatten (k : Kind) (sf : List sanitizedField)
    (l : List (GoValue α)) (d c : Nat) (hd : 0 < d) :
    ((List.range d).map (fun i =>
      doTransform k
        ((l.drop (i * c)).take
          ((if 1 + i = d then l.length else (1 + i) * c) - i * c)) sf)).flatten =
      l.map (transformEntry k sf) := by
  unfold doTransform
  have h1 : (List.range d).map (fun i =>
      ((l.drop (i * c)).take
        ((if 1 + i = d then l.length else (1 + i) * c) - i * c)).map
          (transformEntry k sf)) =
      ((List.range d).map (fun i =>
        (l.drop (i * c)).take
          ((if 1 + i = d then l.length else (1 + i) * c) - i * c))).map
        (List.map (transformEntry k sf)) := by
    rw [List.map_map]
    rfl
  rw [h1, ← List.map_flatten, with_slices_flatten l d c hd]

/-- Unfolding of `With` on a non-empty payload with a supported kind and a
non-empty field list: the output payload is the pointwise transformation of
the input payload. -/
theorem With_payload_map (T : GoType) (P Q : Int) (v0 : GoValue α)
    (rest : List (GoValue α)) (fields : List String) (hf : fields ≠ [])
    (hk : kindOfValue v0 = Kind.struct ∨ kindOfValue v0 = Kind.map) :
    With T ⟨P, Q, v0 :: rest⟩ fields =
      ⟨P, Q, (v0 :: rest).map
        (transformEntry (kindOfValue v0) (sanitizeFields T fields))⟩ := by
  have hflen : fields.length ≠ 0 := fun h => hf (List.length_eq_zero.mp h)
  have hkind : ¬ (kindOfValue v0 ≠ Kind.struct ∧ kindOfValue v0 ≠ Kind.map) := by
    rcases hk with h | h <;> simp [h]
  unfold With
  rw [if_neg (by simp [hflen])]
  simp only []
  rw [if_neg hkind]
  simp only [Result.mk.injEq, true_and]
  have := doTransform_chunks_flatten (kindOfValue v0) (sanitizeFields T fields)
    (v0 :: rest) (computeDelta (v0 :: rest).length)
    ((v0 :: rest).length / computeDelta (v0 :: rest).length)
    (computeDelta_pos _)
  simpa using this

/-! ## Fixed-schema resolution refines the spec's description -/

theorem structInnerStep_def (f : String) (acc2 : List sanitizedField)
    (record : StructField) :
    structInnerStep f acc2 record =
      if tagExternal record.tag = f ∧ contains acc2 (tagExternal record.tag) = false
      then acc2 ++ [⟨tagExternal record.tag, record.name⟩] else acc2 := rfl

theorem contains_append_right (acc l : List sanitizedField) (k : String)
    (h : contains acc k = true) : contains (acc ++ l) k = true := by
  rw [contains_eq_true_iff] at h ⊢
  rw [List.map_append, List.mem_append]
  exact Or.inl h

theorem contains_concat_self (acc : List sanitizedField) (s : sanitizedField) :
    contains (acc ++ [s]) s.snake = true := by
  rw [contains_eq_true_iff, List.map_append, List.mem_append]
  exact Or.inr (by simp)

theorem structInner_eq (f : String) :
    ∀ (tf : List StructField) (acc : List sanitizedField),
      tf.foldl (structInnerStep f) acc =
        (if contains acc f = true then acc
         else
           match tf.find? (fun record => tagExternal record.tag == f) with
           | some record => acc ++ [⟨tagExternal record.tag, record.name⟩]
           | none => acc) := by
  intro tf
  induction tf with
  | nil =>
    intro acc
    cases hc : contains acc f <;> simp [List.find?]
  | cons record rest ih =>
    intro acc
    rw [List.foldl_cons, structInnerStep_def]
    by_cases htag : tagExternal record.tag = f
    · by_cases hc : contains acc f = true
      · rw [if_neg (by rw [htag, hc]; simp), ih acc, if_pos hc, if_pos hc]
      · have hcb : contains acc f = false := by
          cases h2 : contains acc f
          · rfl
          · exact absurd h2 hc
        rw [if_pos ⟨htag, by rw [htag]; exact hcb⟩]
        have hc2 : contains (acc ++ [(⟨tagExternal record.tag, record.name⟩ : sanitizedField)]) f
            = true := by
          rw [contains_eq_true_iff, List.map_append, List.mem_append]
          right
          simp [htag]
        rw [ih _, if_pos hc2, if_neg (by rw [hcb]; simp),
          List.find?_cons_of_pos _ (by simp [htag])]
    · rw [if_neg (by simp [htag]), ih acc,
        List.find?_cons_of_neg _ (by simp [htag])]

theorem structFieldStep_eq_specStep (tf : List StructField)
    (acc : List sanitizedField) (field : String) :
    structFieldStep tf acc field = specStep tf acc field := by
  unfold structFieldStep specStep
  by_cases he : trimChars fieldCutset field = ""
  · rw [if_pos he, if_pos he]
  · rw [if_neg he, if_neg he, structInner_eq]

/-- `sanitizeFields` on a struct type computes exactly the spec's fixed-schema
resolution. -/
theorem sanitizeFields_struct_eq (tf : List StructField) (fields : List String) :
    sanitizeFields (GoType.structT tf) fields = resolveStructSpec tf fields := by
  show fields.foldl (structFieldStep tf) [] = fields.foldl (specStep tf) []
  rw [show structFieldStep tf = specStep tf from
    funext fun acc => funext fun field => structFieldStep_eq_specStep tf acc field]

/-! ## Deduplication: resolved descriptors have pairwise distinct snake names -/

theorem foldl_guard_nodup {σ : Type} (step : List sanitizedField → σ → List sanitizedField)
    (hstep : ∀ acc x, step acc x = acc ∨
      ∃ s, contains acc s.snake = false ∧ step acc x = acc ++ [s]) :
    ∀ (l : List σ) (acc : List sanitizedField),
      (acc.map sanitizedField.snake).Nodup →
      ((l.foldl step acc).map sanitizedField.snake).Nodup := by
  intro l
  induction l with
  | nil => intro acc h; exact h
  | cons x rest ih =>
    intro acc h
    rw [List.foldl_cons]
    rcases hstep acc x with h1 | ⟨s, hs, h1⟩
    · rw [h1]; exact ih acc h
    · rw [h1]
      apply ih
      rw [List.map_append]
      refine List.Nodup.append h (by simp) ?_
      rw [contains_eq_false_iff] at hs
      intro a ha hb
      simp only [List.map_cons, List.map_nil, List.mem_singleton] at hb
      exact hs (hb ▸ ha)

theorem specStep_guard (tf : List StructField) (acc : List sanitizedField)
    (raw : String) :
    specStep tf acc raw = acc ∨
      ∃ s, contains acc s.snake = false ∧ specStep tf acc raw = acc ++ [s] := by
  unfold specStep
  by_cases he : trimChars fieldCutset raw = ""
  · left; rw [if_pos he]
  · rw [if_neg he]
    by_cases hc : contains acc (trimChars fieldCutset raw) = true
    · left; rw [if_pos hc]
    · rw [if_neg hc]
      have hcb : contains acc (trimChars fieldCutset raw) = false := by
        cases h2 : contains acc (trimChars fieldCutset raw)
        · rfl
        · exact absurd h2 hc
      cases hfind : tf.find? (fun record => tagExternal record.tag == trimChars fieldCutset raw) with
      | none => left; rfl
      | some record =>
        right
        refine ⟨⟨tagExternal record.tag, record.name⟩, ?_, rfl⟩
        have hp := List.find?_some hfind
        have heq : tagExternal record.tag = trimChars fieldCutset raw := by
          simpa using hp
        show contains acc (tagExternal record.tag) = false
        rw [heq]
        exact hcb

theorem mapKeyStep_guard (acc : List sanitizedField) (key : String) :
    mapKeyStep acc key = acc ∨
      ∃ s, contains acc s.snake = false ∧ mapKeyStep acc key = acc ++ [s] := by
  unfold mapKeyStep
  by_cases h : trimChars fieldCutset key ≠ "" ∧ contains acc (trimChars fieldCutset key) = false
  · right
    exact ⟨⟨trimChars fieldCutset key, ""⟩, h.2, by rw [if_pos h]⟩
  · left; rw [if_neg h]

/-- Every descriptor list produced by `sanitizeFields` has pairwise distinct
snake (external) names. -/
theorem sanitizeFields_snake_nodup (T : GoType) (fields : List String) :
    ((sanitizeFields T fields).map sanitizedField.snake).Nodup := by
  cases T with
  | structT tf =>
    rw [sanitizeFields_struct_eq]
    exact foldl_guard_nodup _ (specStep_guard tf) fields [] (by simp)
  | mapT =>
    exact foldl_guard_nodup _ mapKeyStep_guard fields [] (by simp)
  | otherT => simp [sanitizeFields]

/-! ## Origin of struct descriptors -/

theorem specStep_mem (tf : List StructField) (acc : List sanitizedField)
    (raw : String) :
    ∀ d ∈ specStep tf acc raw,
      d ∈ acc ∨ ∃ record ∈ tf, d = ⟨tagExternal record.tag, record.name⟩ := by
  unfold specStep
  by_cases he : trimChars fieldCutset raw = ""
  · rw [if_pos he]; exact fun d hd => Or.inl hd
  · rw [if_neg he]
    by_cases hc : contains acc (trimChars fieldCutset raw) = true
    · rw [if_pos hc]; exact fun d hd => Or.inl hd
    · rw [if_neg hc]
      cases hfind : tf.find? (fun record => tagExternal record.tag == trimChars fieldCutset raw) with
      | none => exact fun d hd => Or.inl hd
      | some record =>
        intro d hd
        rcases List.mem_append.mp hd with hda | hds
        · exact Or.inl hda
        · right
          refine ⟨record, List.mem_of_find?_eq_some hfind, ?_⟩
          simpa using hds

theorem resolveStructSpec_mem (tf : List StructField) (fields : List String) :
    ∀ d ∈ resolveStructSpec tf fields,
      ∃ record ∈ tf, d = ⟨tagExternal record.tag, record.name⟩ := by
  unfold resolveStructSpec
  suffices h : ∀ (l : List String) (acc : List sanitizedField),
      (∀ d ∈ acc, ∃ record ∈ tf, d = ⟨tagExternal record.tag, record.name⟩) →
      ∀ d ∈ l.foldl (specStep tf) acc,
        ∃ record ∈ tf, d = ⟨tagExternal record.tag, record.name⟩ by
    exact h fields [] (by simp)
  intro l
  induction l with
  | nil => intro acc hacc; simpa using hacc
  | cons raw rest ih =>
    intro acc hacc
    rw [List.foldl_cons]
    apply ih
    intro d hd
    rcases specStep_mem tf acc raw d hd with hda | hrec
    · exact hacc d hda
    · exact hrec

/-! ## Keys of projected records -/

theorem mapAssign_keys (m : Projected α) (k : String) (v : α) :
    (mapAssign m k v).map Prod.fst =
      if k ∈ m.map Prod.fst then m.map Prod.fst else m.map Prod.fst ++ [k] := by
  unfold mapAssign
  by_cases h : m.any (fun p => p.fst = k) = true
  · rw [if_pos h]
    have hk : k ∈ m.map Prod.fst := by
      rcases List.any_eq_true.mp h with ⟨p, hp, hpk⟩
      simp only [decide_eq_true_eq] at hpk
      exact hpk ▸ List.mem_map_of_mem Prod.fst hp
    rw [if_pos hk, List.map_map]
    apply List.map_congr_left
    intro p hp
    by_cases hpk : p.fst = k
    · simp [hpk]
    · simp [hpk]
  · have hb : m.any (fun p => p.fst = k) = false := by
      cases h2 : m.any (fun p => p.fst = k)
      · rfl
      · exact absurd h2 h
    rw [if_neg (by simp [hb])]
    have hk : k ∉ m.map Prod.fst := by
      intro hmem
      rcases List.mem_map.mp hmem with ⟨p, hp, hpk⟩
      exact h (List.any_eq_true.mpr ⟨p, hp, by simp [hpk]⟩)
    rw [if_neg hk, List.map_append]
    rfl

theorem fieldByName_of_mem (fvs : List (String × α)) (name : String)
    (h : name ∈ fvs.map Prod.fst) : ∃ v, fieldByName fvs name = some v := by
  induction fvs with
  | nil => simp at h
  | cons kv rest ih =>
    by_cases hk : kv.fst = name
    · exact ⟨kv.snd, by rw [fieldByName, if_pos hk]⟩
    · have hmem : name ∈ rest.map Prod.fst := by
        rcases List.mem_map.mp h with ⟨p, hp, hpk⟩
        rcases List.mem_cons.mp hp with rfl | hprest
        · exact absurd hpk hk
        · exact hpk ▸ List.mem_map_of_mem Prod.fst hprest
      obtain ⟨v, hv⟩ := ih hmem
      exact ⟨v, by rw [fieldByName, if_neg hk, hv]⟩

theorem struct_fold_keys (fvs : List (String × α)) :
    ∀ (sf : List sanitizedField) (acc : Projected α),
      (sf.map sanitizedField.snake).Nodup →
      (∀ d ∈ sf, ∃ v, fieldByName fvs d.pascal = some v) →
      (∀ d ∈ sf, d.snake ∉ acc.map Prod.fst) →
      ((sf.foldl (applyField Kind.struct (GoValue.structV fvs)) acc).map Prod.fst)
        = acc.map Prod.fst ++ sf.map sanitizedField.snake := by
  intro sf
  induction sf with
  | nil => intro acc _ _ _; simp
  | cons d rest ih =>
    intro acc hnd hres hdis
    rw [List.foldl_cons]
    obtain ⟨v, hv⟩ := hres d (by simp)
    have happ : applyField Kind.struct (GoValue.structV fvs) acc d
        = mapAssign acc d.snake v := by
      unfold applyField
      rw [if_pos rfl]
      show (match fieldByName fvs d.pascal with
        | some v => mapAssign acc d.snake v
        | none => acc) = mapAssign acc d.snake v
      rw [hv]
    rw [happ]
    have hnotin : d.snake ∉ acc.map Prod.fst := hdis d (by simp)
    have hkeys : (mapAssign acc d.snake v).map Prod.fst
        = acc.map Prod.fst ++ [d.snake] := by
      rw [mapAssign_keys, if_neg hnotin]
    have hndrest : (rest.map sanitizedField.snake).Nodup :=
      (List.nodup_cons.mp hnd).2
    have hheadrest : d.snake ∉ rest.map sanitizedField.snake :=
      (List.nodup_cons.mp hnd).1
    rw [ih (mapAssign acc d.snake v) hndrest
      (fun d' hd' => hres d' (List.mem_cons_of_mem d hd'))
      (fun d' hd' => by
        rw [hkeys, List.mem_append]
        rintro (ha | hb)
        · exact hdis d' (List.mem_cons_of_mem d hd') ha
        · simp only [List.mem_singleton] at hb
          exact hheadrest (hb ▸ List.mem_map_of_mem sanitizedField.snake hd'))]
    rw [hkeys, List.append_assoc]
    rfl

theorem map_entry_fold_keys (s : String) :
    ∀ (entries : List (String × α)) (acc : Projected α),
      ((entries.foldl (fun acc2 kv =>
          if s = kv.fst then mapAssign acc2 s kv.snd else acc2) acc).map Prod.fst)
        = if s ∈ entries.map Prod.fst ∧ s ∉ acc.map Prod.fst
          then acc.map Prod.fst ++ [s] else acc.map Prod.fst := by
  intro entries
  induction entries with
  | nil => intro acc; simp
  | cons kv rest ih =>
    intro acc
    rw [List.foldl_cons]
    by_cases hs : s = kv.fst
    · rw [if_pos hs, ih (mapAssign acc s kv.snd), mapAssign_keys]
      by_cases hacc : s ∈ acc.map Prod.fst
      · rw [if_pos hacc]
        rw [if_neg (by rintro ⟨_, hb⟩; exact hb hacc),
          if_neg (by rintro ⟨_, hb⟩; exact hb hacc)]
      · rw [if_neg hacc]
        rw [if_neg (by rintro ⟨_, hb⟩; exact hb (by simp)),
          if_pos ⟨by simp [hs.symm], hacc⟩]
    · rw [if_neg hs, ih acc]
      have hiff : (s ∈ rest.map Prod.fst ∧ s ∉ acc.map Prod.fst) ↔
          (s ∈ (kv :: rest).map Prod.fst ∧ s ∉ acc.map Prod.fst) := by
        constructor
        · rintro ⟨h1, h2⟩
          exact ⟨by simp [h1], h2⟩
        · rintro ⟨h1, h2⟩
          refine ⟨?_, h2⟩
          simp only [List.map_cons, List.mem_cons] at h1
          exact h1.resolve_left fun h1 => hs h1
      exact if_congr hiff rfl rfl

/-! ## Folds whose every step is the identity -/

theorem foldl_fixed {σ τ : Type} (step : τ → σ → τ) (l : List σ) (init : τ)
    (h : ∀ x ∈ l, ∀ acc, step acc x = acc) : l.foldl step init = init := by
  induction l generalizing init with
  | nil => rfl
  | cons x rest ih =>
    rw [List.foldl_cons, h x (by simp)]
    exact ih init (fun x' hx' => h x' (List.mem_cons_of_mem x hx'))

/-! ## Map-case resolution: membership characterization -/

theorem mapfold_mem (fields : List String) :
    ∀ (acc : List sanitizedField) (d : sanitizedField),
      d ∈ fields.foldl mapKeyStep acc →
      d ∈ acc ∨ (d.pascal = "" ∧ d.snake ≠ "" ∧
        d.snake ∈ fields.map (trimChars fieldCutset)) := by
  induction fields with
  | nil => intro acc d hd; left; simpa using hd
  | cons raw rest ih =>
    intro acc d hd
    rw [List.foldl_cons] at hd
    rcases ih (mapKeyStep acc raw) d hd with hacc | ⟨h1, h2, h3⟩
    · unfold mapKeyStep at hacc
      by_cases hcond : trimChars fieldCutset raw ≠ "" ∧
          contains acc (trimChars fieldCutset raw) = false
      · rw [if_pos hcond] at hacc
        rcases List.mem_append.mp hacc with ha | hb
        · left; exact ha
        · right
          simp only [List.mem_singleton] at hb
          subst hb
          exact ⟨rfl, hcond.1, by simp⟩
      · rw [if_neg hcond] at hacc
        left; exact hacc
    · right
      refine ⟨h1, h2, ?_⟩
      simp only [List.map_cons, List.mem_cons]
      exact Or.inr h3

theorem mapfold_contains (fields : List String) :
    ∀ (acc : List sanitizedField) (k : String), k ≠ "" →
      (contains acc k = true ∨ k ∈ fields.map (trimChars fieldCutset)) →
      contains (fields.foldl mapKeyStep acc) k = true := by
  induction fields with
  | nil =>
    intro acc k _ h
    rcases h with h | h
    · simpa using h
    · simp at h
  | cons raw rest ih =>
    intro acc k hk h
    rw [List.foldl_cons]
    apply ih (mapKeyStep acc raw) k hk
    rcases h with hc | hmem
    · left
      simp only [mapKeyStep]
      split_ifs with hcond
      · exact contains_append_right _ _ _ hc
      · exact hc
    · simp only [List.map_cons, List.mem_cons] at hmem
      rcases hmem with heq | hmemrest
      · left
        simp only [mapKeyStep]
        by_cases hcond : trimChars fieldCutset raw ≠ "" ∧
            contains acc (trimChars fieldCutset raw) = false
        · rw [if_pos hcond, heq]
          exact contains_concat_self acc ⟨trimChars fieldCutset raw, ""⟩
        · rw [if_neg hcond]
          rw [heq] at hk ⊢
          cases h2 : contains acc (trimChars fieldCutset raw) with
          | false => exact absurd ⟨hk, h2⟩ hcond
          | true => rfl
      · right; exact hmemrest

/-! ## Further `With` unfoldings -/

theorem With_shortcircuit (T : GoType) (r : Result (GoValue α))
    (fields : List String) (h : fields = [] ∨ r.Payload = []) :
    With T r fields = ⟨r.Page, r.RPP, []⟩ := by
  unfold With
  rcases h with h | h
  · rw [if_pos (Or.inl (by simp [h]))]
  · rw [if_pos (Or.inr (by simp [h]))]

theorem With_unsupported (T : GoType) (P Q : Int) (v0 : GoValue α)
    (rest : List (GoValue α)) (fields : List String)
    (hk : kindOfValue v0 ≠ Kind.struct ∧ kindOfValue v0 ≠ Kind.map) :
    With T ⟨P, Q, v0 :: rest⟩ fields = ⟨P, Q, []⟩ := by
  unfold With
  by_cases hf : fields.length = 0
  · rw [if_pos (Or.inl hf)]
  · rw [if_neg (by simp [hf])]
    simp only []
    rw [if_pos hk]

/-! ## Chunk ranges, pointwise -/

theorem chunkRanges_getD (n i : Nat) (h : i < computeDelta n) :
    (chunkRanges n).getD i (0, 0) =
      (i * (n / computeDelta n),
        if 1 + i = computeDelta n then n
        else (1 + i) * (n / computeDelta n)) := by
  show (((List.range (computeDelta n)).map (fun j =>
      (j * (n / computeDelta n),
        if 1 + j = computeDelta n then n
        else (1 + j) * (n / computeDelta n)))).getD i (0, 0)) = _
  rw [List.getD_eq_getElem?_getD, List.getElem?_map, List.getElem?_range h]
  rfl

/-! ## Claim theorems -/

/-- C1: for every input Result with a non-empty payload of records of a
supported shape (all of the first element's kind, which is struct or map)
and every non-empty field list, `With` returns a payload of exactly the same
length as the input payload, and the i-th output record is the projection of
the i-th input record, for every payload size and hence at every chunking
threshold, regardless of how many requested fields resolve. -/
theorem with_projection_correspondence (T : GoType) (r : Result (GoValue α))
    (fields : List String) (v0 : GoValue α) (rest : List (GoValue α))
    (hpay : r.Payload = v0 :: rest) (hf : fields ≠ [])
    (hk : kindOfValue v0 = Kind.struct ∨ kindOfValue v0 = Kind.map)
    (hhomog : ∀ v ∈ r.Payload, kindOfValue v = kindOfValue v0) :
    (With T r fields).Payload.length = r.Payload.length ∧
    (With T r fields).Payload =
      r.Payload.map (transformEntry (kindOfValue v0) (sanitizeFields T fields)) ∧
    ∀ i, i < r.Payload.length →
      (With T r fields).Payload.getD i [] =
        transformEntry (kindOfValue v0) (sanitizeFields T fields)
          (r.Payload.getD i GoValue.otherV) := by
  have hreta : r = ⟨r.Page, r.RPP, v0 :: rest⟩ := by rw [← hpay]
  rw [hreta, With_payload_map T r.Page r.RPP v0 rest fields hf hk]
  simp only []
  refine ⟨by simp, by simp, ?_⟩
  intro i hi
  have hi' : i < (v0 :: rest).length := by simpa using hi
  rw [List.getD_eq_getElem?_getD, List.getD_eq_getElem?_getD, List.getElem?_map,
    List.getElem?_eq_getElem hi']
  rfl

/-- C1 witness at the chunking threshold size 101 (delta = 2). -/
theorem with_projection_correspondence_witness :
    ((⟨1, 101, List.replicate 101 (GoValue.mapV [("x", 5)])⟩ :
        Result (GoValue Nat)).Payload =
      GoValue.mapV [("x", 5)] :: List.replicate 100 (GoValue.mapV [("x", 5)])) ∧
    (["x"] : List String) ≠ [] ∧
    (kindOfValue (GoValue.mapV [("x", (5 : Nat))]) = Kind.struct ∨
      kindOfValue (GoValue.mapV [("x", (5 : Nat))]) = Kind.map) ∧
    (∀ v ∈ (⟨1, 101, List.replicate 101 (GoValue.mapV [("x", 5)])⟩ :
        Result (GoValue Nat)).Payload,
      kindOfValue v = kindOfValue (GoValue.mapV [("x", (5 : Nat))])) ∧
    (With GoType.mapT
        ⟨1, 101, List.replicate 101 (GoValue.mapV [("x", 5)])⟩ ["x"]).Payload.length =
      (⟨1, 101, List.replicate 101 (GoValue.mapV [("x", 5)])⟩ :
        Result (GoValue Nat)).Payload.length :=
  ⟨by decide, by decide, by decide, by decide,
    (with_projection_correspondence GoType.mapT
      ⟨1, 101, List.replicate 101 (GoValue.mapV [("x", 5)])⟩ ["x"]
      (GoValue.mapV [("x", 5)]) (List.replicate 100 (GoValue.mapV [("x", 5)]))
      (by decide) (by decide) (by decide) (by decide)).1⟩

/-- C2 counterexample: the short-circuit is not the only path producing a
zero-length output payload from a non-empty input payload — a non-empty
payload whose first element has an unsupported kind, with a non-empty field
list, also produces one. -/
theorem with_empty_output_not_only_shortcircuit :
    ([GoValue.otherV] : List (GoValue Nat)) ≠ [] ∧
    (["x"] : List String) ≠ [] ∧
    (With GoType.otherT
      (⟨1, 1, [GoValue.otherV]⟩ : Result (GoValue Nat)) ["x"]).Payload = [] :=
  ⟨by decide, by decide, by decide⟩

/-- C2 (amended): if the field list is empty or the payload is empty, `With`
returns the same Page and RPP with an empty payload; and for a non-empty
input payload, the output payload is empty exactly when the field list is
empty or the first element's kind is neither struct nor map (the
unsupported-shape path being the only other such path). -/
theorem with_empty_output_characterization :
    (∀ (T : GoType) (r : Result (GoValue α)) (fields : List String),
      fields = [] ∨ r.Payload = [] → With T r fields = ⟨r.Page, r.RPP, []⟩) ∧
    (∀ (T : GoType) (r : Result (GoValue α)) (fields : List String)
      (v0 : GoValue α) (rest : List (GoValue α)), r.Payload = v0 :: rest →
      ((With T r fields).Payload = [] ↔
        fields = [] ∨
          (kindOfValue v0 ≠ Kind.struct ∧ kindOfValue v0 ≠ Kind.map))) := by
  refine ⟨fun T r fields h => With_shortcircuit T r fields h, ?_⟩
  intro T r fields v0 rest hpay
  have hreta : r = ⟨r.Page, r.RPP, v0 :: rest⟩ := by rw [← hpay]
  constructor
  · intro hempty
    by_cases hf : fields = []
    · exact Or.inl hf
    · right
      by_contra hnk
      have hk : kindOfValue v0 = Kind.struct ∨ kindOfValue v0 = Kind.map := by
        cases h2 : kindOfValue v0 with
        | struct => exact Or.inl rfl
        | map => exact Or.inr rfl
        | other =>
          rw [h2] at hnk
          exact absurd ⟨by decide, by decide⟩ hnk
      rw [hreta, With_payload_map T r.Page r.RPP v0 rest fields hf hk] at hempty
      simp at hempty
  · intro h
    rcases h with hf | hnk
    · rw [With_shortcircuit T r fields (Or.inl hf)]
    · rw [hreta, With_unsupported T r.Page r.RPP v0 rest fields hnk]

/-- C2 witness: both parts at concrete inputs. -/
theorem with_empty_output_characterization_witness :
    With GoType.mapT
        (⟨2, 5, [GoValue.mapV [("x", (3 : Nat))]]⟩ : Result (GoValue Nat)) [] =
      ⟨2, 5, []⟩ ∧
    ((With GoType.mapT
        (⟨2, 5, [GoValue.mapV [("x", (3 : Nat))]]⟩ : Result (GoValue Nat))
        ["x"]).Payload = [] ↔
      (["x"] : List String) = [] ∨
        (kindOfValue (GoValue.mapV [("x", (3 : Nat))]) ≠ Kind.struct ∧
          kindOfValue (GoValue.mapV [("x", (3 : Nat))]) ≠ Kind.map)) :=
  ⟨(with_empty_output_characterization (α := Nat)).1 GoType.mapT
      ⟨2, 5, [GoValue.mapV [("x", 3)]]⟩ [] (Or.inl rfl),
    (with_empty_output_characterization (α := Nat)).2 GoType.mapT
      ⟨2, 5, [GoValue.mapV [("x", 3)]]⟩ ["x"] (GoValue.mapV [("x", 3)]) []
      (by decide)⟩

/-- C3: for a non-empty payload of struct records and a non-empty field list
none of whose names matches any schema alias, `With` does not return an
empty payload: it returns one empty projected record per input record. -/
theorem with_all_unknown_fields (tf : List StructField)
    (r : Result (GoValue α)) (fields : List String) (v0 : GoValue α)
    (rest : List (GoValue α)) (hpay : r.Payload = v0 :: rest)
    (hf : fields ≠ [])
    (hstruct : ∀ v ∈ r.Payload, ∃ fvs, v = GoValue.structV fvs)
    (hunknown : ∀ f ∈ fields, ∀ record ∈ tf,
      tagExternal record.tag ≠ trimChars fieldCutset f) :
    (With (GoType.structT tf) r fields).Payload =
      r.Payload.map (fun _ => ([] : Projected α)) ∧
    (With (GoType.structT tf) r fields).Payload.length = r.Payload.length ∧
    (With (GoType.structT tf) r fields).Payload ≠ [] := by
  have hsf : sanitizeFields (GoType.structT tf) fields = [] := by
    rw [sanitizeFields_struct_eq]
    apply foldl_fixed
    intro f hfmem acc
    unfold specStep
    by_cases he : trimChars fieldCutset f = ""
    · rw [if_pos he]
    · rw [if_neg he]
      by_cases hc : contains acc (trimChars fieldCutset f) = true
      · rw [if_pos hc]
      · rw [if_neg hc]
        have hnone : tf.find?
            (fun record => tagExternal record.tag == trimChars fieldCutset f)
            = none := by
          rw [List.find?_eq_none]
          intro record hrec
          simp only [beq_iff_eq]
          exact hunknown f hfmem record hrec
        rw [hnone]
  have hk0 : kindOfValue v0 = Kind.struct := by
    obtain ⟨fvs, hv⟩ := hstruct v0 (by rw [hpay]; simp)
    rw [hv]
    rfl
  have hreta : r = ⟨r.Page, r.RPP, v0 :: rest⟩ := by rw [← hpay]
  rw [hreta, With_payload_map (GoType.structT tf) r.Page r.RPP v0 rest fields hf
    (Or.inl hk0)]
  simp only []
  refine ⟨?_, by simp, by simp⟩
  apply List.map_congr_left
  intro v _
  rw [hsf]
  rfl

/-- C3 witness: three struct records, two unknown names. -/
theorem with_all_unknown_fields_witness :
    ((⟨1, 3, [demoRecord 1 10, demoRecord 2 20, demoRecord 3 30]⟩ :
        Result (GoValue Nat)).Payload =
      demoRecord 1 10 :: [demoRecord 2 20, demoRecord 3 30]) ∧
    (["unknown_a", "unknown_b"] : List String) ≠ [] ∧
    (∀ f ∈ ["unknown_a", "unknown_b"], ∀ record ∈ demoSchema,
      tagExternal record.tag ≠ trimChars fieldCutset f) ∧
    (With (GoType.structT demoSchema)
        (⟨1, 3, [demoRecord 1 10, demoRecord 2 20, demoRecord 3 30]⟩ :
          Result (GoValue Nat)) ["unknown_a", "unknown_b"]).Payload.length = 3 ∧
    (With (GoType.structT demoSchema)
        (⟨1, 3, [demoRecord 1 10, demoRecord 2 20, demoRecord 3 30]⟩ :
          Result (GoValue Nat)) ["unknown_a", "unknown_b"]).Payload ≠ [] := by
  have h := with_all_unknown_fields demoSchema
    (⟨1, 3, [demoRecord 1 10, demoRecord 2 20, demoRecord 3 30]⟩ :
      Result (GoValue Nat)) ["unknown_a", "unknown_b"]
    (demoRecord 1 10) [demoRecord 2 20, demoRecord 3 30]
    (by decide) (by decide)
    (by intro v hv; fin_cases hv <;> exact ⟨_, rfl⟩)
    (by decide)
  exact ⟨by decide, by decide, by decide, h.2.1, h.2.2⟩

/-- C4: for every payload size n ≥ 1, the fan-out degree follows the size
buckets (≤ 100 → 1, ≤ 1000 → 2, ≤ 10000 → 3, else 4); `With` slices the
payload into delta contiguous ranges: the first delta−1 each of exactly
n / delta elements, the last absorbing the remainder up to n; the slices
cover the payload exactly once in order, and the base chunk size is never
zero. -/
theorem chunk_plan (n : Nat) (hn : 1 ≤ n) :
    computeDelta n =
      (if n ≤ 100 then 1 else if n ≤ 1000 then 2
        else if n ≤ 10000 then 3 else 4) ∧
    (chunkRanges n).length = computeDelta n ∧
    (∀ i, 1 + i < computeDelta n →
      ((chunkRanges n).getD i (0, 0)).2 - ((chunkRanges n).getD i (0, 0)).1 =
        n / computeDelta n) ∧
    ((chunkRanges n).getD (computeDelta n - 1) (0, 0) =
      ((computeDelta n - 1) * (n / computeDelta n), n)) ∧
    1 ≤ n / computeDelta n ∧
    (∀ (l : List Nat), l.length = n →
      ((chunkRanges n).map (fun p => (l.drop p.1).take (p.2 - p.1))).flatten
        = l) := by
  refine ⟨?_, ?_, ?_, ?_, ?_, ?_⟩
  · unfold computeDelta
    split_ifs <;> omega
  · show ((List.range (computeDelta n)).map _).length = computeDelta n
    rw [List.length_map, List.length_range]
  · intro i hi
    rw [chunkRanges_getD n i (by omega)]
    rw [if_neg (by omega)]
    show (1 + i) * (n / computeDelta n) - i * (n / computeDelta n)
      = n / computeDelta n
    rw [Nat.add_mul, Nat.one_mul, Nat.add_sub_cancel]
  · have hd := computeDelta_pos n
    rw [chunkRanges_getD n (computeDelta n - 1) (by omega)]
    rw [if_pos (by omega)]
  · rw [Nat.one_le_div_iff (computeDelta_pos n)]
    exact computeDelta_le n hn
  · intro l hl
    subst hl
    show ((((List.range (computeDelta l.length)).map (fun i =>
      (i * (l.length / computeDelta l.length),
        if 1 + i = computeDelta l.length then l.length
        else (1 + i) * (l.length / computeDelta l.length))))).map
          (fun p => (l.drop p.1).take (p.2 - p.1))).flatten = l
    rw [List.map_map]
    exact with_slices_flatten l (computeDelta l.length)
      (l.length / computeDelta l.length) (computeDelta_pos _)

/-- C4 witness at n = 101 (delta = 2, base chunk size 50). -/
theorem chunk_plan_witness :
    1 ≤ 101 ∧
    computeDelta 101 =
      (if 101 ≤ 100 then 1 else if 101 ≤ 1000 then 2
        else if 101 ≤ 10000 then 3 else 4) ∧
    chunkRanges 101 = [(0, 50), (50, 101)] :=
  ⟨by decide, (chunk_plan 101 (by decide)).1, by decide⟩

/-- C5: on a struct type, `sanitizeFields` computes exactly the spec's
resolution (trim the cutset, drop empty names, scan declared fields in
order, first alias match wins, unmatched names dropped silently); on the
concrete scenario schema, `["first_name", "first_name ", "unknown", ""]`
resolves to the single descriptor for first_name and `With` projects three
records to `{"first_name": original value}` each, in order. -/
theorem sanitizeFields_struct_resolution :
    (∀ (tf : List StructField) (fields : List String),
      sanitizeFields (GoType.structT tf) fields = resolveStructSpec tf fields) ∧
    (sanitizeFields (GoType.structT demoSchema)
      ["first_name", "first_name ", "unknown", ""] =
      [⟨"first_name", "FirstName"⟩]) ∧
    (∀ (P Q : Int) (i1 i2 i3 v1 v2 v3 : α),
      With (GoType.structT demoSchema)
        ⟨P, Q, [demoRecord i1 v1, demoRecord i2 v2, demoRecord i3 v3]⟩
        ["first_name", "first_name ", "unknown", ""] =
      ⟨P, Q, [[("first_name", v1)], [("first_name", v2)],
        [("first_name", v3)]]⟩) := by
  refine ⟨sanitizeFields_struct_eq, by decide, ?_⟩
  intro P Q i1 i2 i3 v1 v2 v3
  rw [With_payload_map (GoType.structT demoSchema) P Q (demoRecord i1 v1)
    [demoRecord i2 v2, demoRecord i3 v3]
    ["first_name", "first_name ", "unknown", ""] (by decide)
    (Or.inl (by simp [demoRecord, kindOfValue]))]
  have hsf : sanitizeFields (GoType.structT demoSchema)
      ["first_name", "first_name ", "unknown", ""] =
      [⟨"first_name", "FirstName"⟩] := by decide
  rw [hsf]
  simp [demoRecord, kindOfValue, transformEntry, applyField, fieldByName,
    mapAssign]

/-- C6: within one resolution, descriptors are deduplicated by external
(snake) name: the output descriptor list never carries the same external
name twice, whatever the raw strings' padding, so a field requested several
times contributes at most one descriptor. -/
theorem sanitizeFields_dedup (T : GoType) (fields : List String) :
    ((sanitizeFields T fields).map sanitizedField.snake).Nodup :=
  sanitizeFields_snake_nodup T fields

/-- C7 counterexample: for a dynamic (map) record type, the code's
descriptor for "x" is ("x", ""), not the claimed ("x", "x"): the internal
component keeps its zero value. -/
theorem sanitizeFields_map_not_diagonal :
    sanitizeFields GoType.mapT ["x"] = [⟨"x", ""⟩] ∧
    sanitizeFields GoType.mapT ["x"] ≠ [⟨"x", "x"⟩] :=
  ⟨by decide, by decide⟩

/-- C7 (amended): for map-shaped records, every normalized, non-empty,
not-yet-seen name produces the descriptor (name, "") unconditionally, with
no schema check (the internal component, unused for dynamic records, keeps
its zero value instead of repeating the name); per record a value is copied
under the name only when some key matches exactly, so projecting ["x"] over
two dynamic records where only the first contains key x yields
[{"x": value}, {}]. -/
theorem sanitizeFields_map_descriptor_spec :
    (∀ (fields : List String) (d : sanitizedField),
      d ∈ sanitizeFields GoType.mapT fields →
      d.pascal = "" ∧ d.snake ≠ "" ∧
        d.snake ∈ fields.map (trimChars fieldCutset)) ∧
    (∀ (fields : List String) (k : String), k ≠ "" →
      k ∈ fields.map (trimChars fieldCutset) →
      contains (sanitizeFields GoType.mapT fields) k = true) ∧
    (∀ (entries : List (String × α)) (d : sanitizedField),
      (transformEntry Kind.map [d] (GoValue.mapV entries)).map Prod.fst =
        if d.snake ∈ entries.map Prod.fst then [d.snake] else []) ∧
    (∀ (v w : α) (P Q : Int),
      With GoType.mapT
        ⟨P, Q, [GoValue.mapV [("x", v)], GoValue.mapV [("y", w)]]⟩ ["x"] =
      ⟨P, Q, [[("x", v)], []]⟩) := by
  refine ⟨?_, ?_, ?_, ?_⟩
  · intro fields d hd
    rcases mapfold_mem fields [] d hd with h | h
    · simp at h
    · exact h
  · intro fields k hk hmem
    exact mapfold_contains fields [] k hk (Or.inr hmem)
  · intro entries d
    show ((entries.foldl (fun acc2 kv =>
      if d.snake = kv.fst then mapAssign acc2 d.snake kv.snd else acc2)
        []).map Prod.fst) = _
    rw [map_entry_fold_keys d.snake entries []]
    by_cases h : d.snake ∈ entries.map Prod.fst
    · rw [if_pos ⟨h, by simp⟩, if_pos h]
      rfl
    · rw [if_neg (by rintro ⟨h1, _⟩; exact h h1), if_neg h]
      rfl
  · intro v w P Q
    rw [With_payload_map GoType.mapT P Q (GoValue.mapV [("x", v)])
      [GoValue.mapV [("y", w)]] ["x"] (by decide) (Or.inr rfl)]
    have hsf : sanitizeFields GoType.mapT ["x"] = [⟨"x", ""⟩] := by decide
    rw [hsf]
    simp [kindOfValue, transformEntry, applyField, mapAssign]

/-- C7 witness: unconditional production for a padded name, and the
two-record heterogeneity scenario. -/
theorem sanitizeFields_map_descriptor_spec_witness :
    contains (sanitizeFields GoType.mapT ["  x  "]) "x" = true ∧
    With GoType.mapT
      (⟨1, 2, [GoValue.mapV [("x", (7 : Nat))], GoValue.mapV [("y", 9)]]⟩ :
        Result (GoValue Nat)) ["x"] = ⟨1, 2, [[("x", 7)], []]⟩ :=
  ⟨(sanitizeFields_map_descriptor_spec (α := Nat)).2.1 ["  x  "] "x"
      (by decide) (by decide),
    (sanitizeFields_map_descriptor_spec (α := Nat)).2.2.2 7 9 1 2⟩

/-- C8: `With` is total and error-free: for every input Result and field
list it returns a structurally valid Result carrying the input's Page and
RPP, whose payload either matches the input payload's length or degrades to
the empty payload — never an error. -/
theorem with_total_wellformed (T : GoType) (r : Result (GoValue α))
    (fields : List String) :
    (With T r fields).Page = r.Page ∧ (With T r fields).RPP = r.RPP ∧
    ((With T r fields).Payload.length = r.Payload.length ∨
      (With T r fields).Payload = []) := by
  cases hpay : r.Payload with
  | nil =>
    rw [With_shortcircuit T r fields (Or.inr hpay)]
    exact ⟨rfl, rfl, Or.inr rfl⟩
  | cons v0 rest =>
    have hreta : r = ⟨r.Page, r.RPP, v0 :: rest⟩ := by rw [← hpay]
    by_cases hf : fields = []
    · rw [With_shortcircuit T r fields (Or.inl hf)]
      exact ⟨rfl, rfl, Or.inr rfl⟩
    · cases hk : kindOfValue v0 with
      | struct =>
        rw [hreta, With_payload_map T r.Page r.RPP v0 rest fields hf (Or.inl hk)]
        exact ⟨rfl, rfl, Or.inl (by simp)⟩
      | map =>
        rw [hreta, With_payload_map T r.Page r.RPP v0 rest fields hf (Or.inr hk)]
        exact ⟨rfl, rfl, Or.inl (by simp)⟩
      | other =>
        rw [hreta, With_unsupported T r.Page r.RPP v0 rest fields
          (by rw [hk]; exact ⟨by decide, by decide⟩)]
        exact ⟨rfl, rfl, Or.inr rfl⟩

/-- C9: on a struct schema, every resolved descriptor's internal identifier
names an actual declared field, so the per-record lookup always succeeds and
every projected record of one call carries exactly the descriptors' external
names as keys — identical key sets across all records of the output. -/
theorem with_struct_homogeneous_keys (tf : List StructField)
    (r : Result (GoValue α)) (fields : List String) (v0 : GoValue α)
    (rest : List (GoValue α)) (hpay : r.Payload = v0 :: rest)
    (hf : fields ≠ [])
    (hwt : ∀ v ∈ r.Payload, ∃ fvs, v = GoValue.structV fvs ∧
      fvs.map Prod.fst = tf.map StructField.name) :
    (∀ d ∈ sanitizeFields (GoType.structT tf) fields,
      ∃ record ∈ tf, d = ⟨tagExternal record.tag, record.name⟩) ∧
    (∀ m ∈ (With (GoType.structT tf) r fields).Payload,
      m.map Prod.fst =
        (sanitizeFields (GoType.structT tf) fields).map
          sanitizedField.snake) := by
  constructor
  · intro d hd
    rw [sanitizeFields_struct_eq] at hd
    exact resolveStructSpec_mem tf fields d hd
  · obtain ⟨fvs0, hv0, hkeys0⟩ := hwt v0 (by rw [hpay]; simp)
    have hk0 : kindOfValue v0 = Kind.struct := by rw [hv0]; rfl
    have hreta : r = ⟨r.Page, r.RPP, v0 :: rest⟩ := by rw [← hpay]
    intro m hm
    rw [hreta, With_payload_map (GoType.structT tf) r.Page r.RPP v0 rest
      fields hf (Or.inl hk0)] at hm
    simp only [] at hm
    rcases List.mem_map.mp hm with ⟨v, hvmem, rfl⟩
    obtain ⟨fvs, hveq, hfvskeys⟩ := hwt v (by rw [hpay]; exact hvmem)
    rw [hveq, hk0]
    have hres : ∀ d ∈ sanitizeFields (GoType.structT tf) fields,
        ∃ v2, fieldByName fvs d.pascal = some v2 := by
      intro d hd
      obtain ⟨record, hrec, hdeq⟩ :=
        resolveStructSpec_mem tf fields d
          (by rw [← sanitizeFields_struct_eq]; exact hd)
      apply fieldByName_of_mem
      rw [hdeq]
      show record.name ∈ fvs.map Prod.fst
      rw [hfvskeys]
      exact List.mem_map_of_mem StructField.name hrec
    have hsk := struct_fold_keys fvs
      (sanitizeFields (GoType.structT tf) fields) []
      (sanitizeFields_snake_nodup _ fields) hres (by intro d _; simp)
    simpa [transformEntry] using hsk

/-- C9 witness: two schema records, both requested fields resolve; the first
output record's keys equal the descriptors' external names. -/
theorem with_struct_homogeneous_keys_witness :
    ((⟨1, 2, [demoRecord 1 10, demoRecord 2 20]⟩ :
        Result (GoValue Nat)).Payload = demoRecord 1 10 :: [demoRecord 2 20]) ∧
    (["first_name", "id"] : List String) ≠ [] ∧
    [("first_name", (10 : Nat)), ("id", 1)].map Prod.fst =
      (sanitizeFields (GoType.structT demoSchema) ["first_name", "id"]).map
        sanitizedField.snake := by
  refine ⟨by decide, by decide, ?_⟩
  exact (with_struct_homogeneous_keys demoSchema
    (⟨1, 2, [demoRecord 1 10, demoRecord 2 20]⟩ : Result (GoValue Nat))
    ["first_name", "id"] (demoRecord 1 10) [demoRecord 2 20] (by decide)
    (by decide)
    (by intro v hv; fin_cases hv <;> exact ⟨_, rfl, by decide⟩)).2
    [("first_name", 10), ("id", 1)] (by decide)

/-- C10: for every Result whose payload is non-empty but whose first
element's kind is neither struct nor map, `With` returns, without error, the
original Page and RPP with a zero-length payload, whatever the field list. -/
theorem with_unsupported_shape_empty (T : GoType) (P Q : Int)
    (v0 : GoValue α) (rest : List (GoValue α)) (fields : List String)
    (hk : kindOfValue v0 ≠ Kind.struct ∧ kindOfValue v0 ≠ Kind.map) :
    With T ⟨P, Q, v0 :: rest⟩ fields = ⟨P, Q, []⟩ := by
  by_cases hf : fields = []
  · exact With_shortcircuit T ⟨P, Q, v0 :: rest⟩ fields (Or.inl hf)
  · exact With_unsupported T P Q v0 rest fields hk

/-- C10 witness: a two-element payload of unsupported (pointer-like) values
with a non-empty field list. -/
theorem with_unsupported_shape_empty_witness :
    (kindOfValue (GoValue.otherV : GoValue Nat) ≠ Kind.struct ∧
      kindOfValue (GoValue.otherV : GoValue Nat) ≠ Kind.map) ∧
    With GoType.otherT
      (⟨7, 8, [GoValue.otherV, GoValue.otherV]⟩ : Result (GoValue Nat))
      ["a", "b"] = ⟨7, 8, []⟩ :=
  ⟨by decide, with_unsupported_shape_empty GoType.otherT 7 8 GoValue.otherV
    [GoValue.otherV] ["a", "b"] (by decide)⟩
